import Mathlib

/-!
Verification of the War card game simulation, a shallow embedding of the
Rust source (`src/main.rs`).  A deck is a list of card ranks with the
front of the list as the top of the pile; `GameState.step` is the round
transition of the game state machine, and `Score.to_int` maps terminal
scores to integers for reporting.  The Rust assertion in the move-cap
branch of `step` (`assert!(self.moves == MAX_MOVES)`) is modelled by
returning `none` when the move count strictly exceeds the cap.
-/

def MAX_MOVES : Nat := 1000000

def SUITS_PER_PLAYER : Nat := 256

abbrev Deck := List Nat

/-- Model of `Deck::new_half_deck`: for each of the `SUITS_PER_PLAYER` slots, push
the ranks `2..15` (i.e. 2 through 14) in ascending order. -/
def Deck.new_half_deck : Deck :=
  (List.replicate SUITS_PER_PLAYER (List.range' 2 13)).flatten

/-- Model of `Deck::new_empty`. -/
def Deck.new_empty : Deck := []

/-- Model of `Deck::draw`: `pop_front`, returning the drawn card and the rest. -/
def Deck.draw (d : Deck) : Option (Nat × Deck) :=
  match d with
  | [] => none
  | x :: xs => some (x, xs)

/-- Model of `Deck::add`: `push_back`. -/
def Deck.add (d : Deck) (card : Nat) : Deck := d ++ [card]

/-- Model of `Deck::add_pile`: `add` every card of `pile`, front to back. -/
def Deck.add_pile (d : Deck) (pile : Deck) : Deck :=
  match pile with
  | [] => d
  | x :: xs => Deck.add_pile (d.add x) xs

inductive Score where
  | WinAfter (moves : Nat)
  | LoseAfter (moves : Nat)
  | FinishWith (cards : Nat)
  | TiedAt (moves : Nat)
deriving DecidableEq, Repr

structure GameState where
  computer : Deck
  player : Deck
  moves : Nat
deriving DecidableEq, Repr

inductive GameStepped where
  | Cont (gs : GameState)
  | Done (score : Score)
deriving DecidableEq, Repr

/-- Model of `Score::to_int`. -/
def Score.to_int : Score → Nat
  | .LoseAfter moves => moves
  | .TiedAt _moves => MAX_MOVES + 13 * SUITS_PER_PLAYER
  | .FinishWith cards => MAX_MOVES + cards
  | .WinAfter moves => MAX_MOVES + 13 * SUITS_PER_PLAYER * 2 + (MAX_MOVES - moves)

/-- One supplementary war draw for one side: the drawn card, if any, is
appended to that side's pile; an empty deck contributes nothing. -/
def warDraw (d : Deck) (pile : Deck) : Deck × Deck :=
  match d.draw with
  | none => (d, pile)
  | some (x, rest) => (rest, pile.add x)

/-- `n` successive supplementary war draws for one side (the Rust
`for _ in 1..4` loop performs three per side, the two sides being
independent). -/
def warDraws : Nat → Deck → Deck → Deck × Deck
  | 0, d, pile => (d, pile)
  | n + 1, d, pile => warDraws n (warDraw d pile).1 (warDraw d pile).2

theorem warDraws_eq (n : Nat) (d pile : Deck) :
    warDraws n d pile = (d.drop n, pile ++ d.take n) := by
  induction n generalizing d pile with
  | zero => simp [warDraws]
  | succ n ih =>
    cases d with
    | nil => simp [warDraws, warDraw, Deck.draw, ih]
    | cons x xs => simp [warDraws, warDraw, Deck.draw, Deck.add, ih]

/-- The round-resolution loop inside `GameState::step`: primary draws,
comparison, and the war escalation re-entering the loop with the
accumulated piles. -/
def stepLoop (computer player : Deck) (moves : Nat)
    (computer_pile player_pile : Deck) : GameStepped :=
  match computer, player with
  | [], [] => .Done (.TiedAt moves)
  | [], _ :: _ => .Done (.WinAfter moves)
  | _ :: _, [] => .Done (.LoseAfter moves)
  | c :: cs, p :: ps =>
    if c < p then
      .Cont ⟨cs, Deck.add_pile (Deck.add_pile ps (player_pile.add p)) (computer_pile.add c),
        moves + 1⟩
    else if p < c then
      .Cont ⟨Deck.add_pile (Deck.add_pile cs (computer_pile.add c)) (player_pile.add p), ps,
        moves + 1⟩
    else
      stepLoop (warDraws 3 cs (computer_pile.add c)).1
        (warDraws 3 ps (player_pile.add p)).1 moves
        (warDraws 3 cs (computer_pile.add c)).2
        (warDraws 3 ps (player_pile.add p)).2
termination_by computer.length + player.length
decreasing_by
  simp [warDraws_eq]
  omega

/-- Model of `GameState::step`.  The `assert!(self.moves == MAX_MOVES)` in the
cap branch is modelled by `none` (assertion failure) when the move count
strictly exceeds the cap. -/
def GameState.step (gs : GameState) : Option GameStepped :=
  if MAX_MOVES ≤ gs.moves then
    if gs.moves = MAX_MOVES then
      some (.Done (.FinishWith gs.player.length))
    else
      none
  else
    some (stepLoop gs.computer gs.player gs.moves Deck.new_empty Deck.new_empty)

/-- States reachable from an initial game state (move count 0) by
repeated `Continuing` steps. -/
inductive Reachable : GameState → Prop where
  | init (computer player : Deck) : Reachable ⟨computer, player, 0⟩
  | next (gs gs2 : GameState) : Reachable gs → gs.step = some (.Cont gs2) →
      Reachable gs2

theorem add_pile_eq_append (d pile : Deck) : Deck.add_pile d pile = d ++ pile := by
  induction pile generalizing d with
  | nil => simp [Deck.add_pile]
  | cons x xs ih => simp [Deck.add_pile, Deck.add, ih]

theorem stepLoop_nil_nil (m : Nat) (cpile ppile : Deck) :
    stepLoop [] [] m cpile ppile = .Done (.TiedAt m) := by
  rw [stepLoop]

theorem stepLoop_nil_cons (p : Nat) (ps : Deck) (m : Nat) (cpile ppile : Deck) :
    stepLoop [] (p :: ps) m cpile ppile = .Done (.WinAfter m) := by
  rw [stepLoop]

theorem stepLoop_cons_nil (c : Nat) (cs : Deck) (m : Nat) (cpile ppile : Deck) :
    stepLoop (c :: cs) [] m cpile ppile = .Done (.LoseAfter m) := by
  rw [stepLoop]

theorem stepLoop_lt (c p : Nat) (cs ps : Deck) (m : Nat) (cpile ppile : Deck)
    (h : c < p) :
    stepLoop (c :: cs) (p :: ps) m cpile ppile
      = .Cont ⟨cs, (ps ++ (ppile ++ [p])) ++ (cpile ++ [c]), m + 1⟩ := by
  rw [stepLoop]
  simp [h, add_pile_eq_append, Deck.add]

theorem stepLoop_gt (c p : Nat) (cs ps : Deck) (m : Nat) (cpile ppile : Deck)
    (h : p < c) :
    stepLoop (c :: cs) (p :: ps) m cpile ppile
      = .Cont ⟨(cs ++ (cpile ++ [c])) ++ (ppile ++ [p]), ps, m + 1⟩ := by
  rw [stepLoop]
  simp [h, Nat.not_lt_of_lt h, add_pile_eq_append, Deck.add]

theorem stepLoop_war (c m : Nat) (cs ps cpile ppile : Deck) :
    stepLoop (c :: cs) (c :: ps) m cpile ppile
      = stepLoop (cs.drop 3) (ps.drop 3) m
          ((cpile ++ [c]) ++ cs.take 3) ((ppile ++ [c]) ++ ps.take 3) := by
  rw [stepLoop]
  simp [warDraws_eq, Deck.add]

theorem stepLoop_cont_inv (n : Nat) (computer player cpile ppile : Deck)
    (m : Nat) (gs2 : GameState)
    (hn : computer.length + player.length ≤ n)
    (h : stepLoop computer player m cpile ppile = .Cont gs2) :
    gs2.moves = m + 1 ∧
    gs2.computer.length + gs2.player.length
      = computer.length + player.length + cpile.length + ppile.length ∧
    (↑gs2.computer + ↑gs2.player : Multiset Nat)
      = ↑computer + ↑player + ↑cpile + ↑ppile := by
  induction n generalizing computer player cpile ppile m gs2 with
  | zero =>
    have hc : computer = [] := by
      cases computer with
      | nil => rfl
      | cons x xs => simp at hn
    have hp : player = [] := by
      cases player with
      | nil => rfl
      | cons x xs => simp at hn
    subst hc
    subst hp
    rw [stepLoop_nil_nil] at h
    exact absurd h (by simp)
  | succ n ih =>
    cases computer with
    | nil =>
      cases player with
      | nil =>
        rw [stepLoop_nil_nil] at h
        exact absurd h (by simp)
      | cons p ps =>
        rw [stepLoop_nil_cons] at h
        exact absurd h (by simp)
    | cons c cs =>
      cases player with
      | nil =>
        rw [stepLoop_cons_nil] at h
        exact absurd h (by simp)
      | cons p ps =>
        rcases Nat.lt_trichotomy c p with hlt | heq | hgt
        · rw [stepLoop_lt c p cs ps m cpile ppile hlt] at h
          injection h with h2
          subst h2
          refine ⟨rfl, ?_, ?_⟩
          · simp
            omega
          · simp only [← Multiset.coe_add, ← Multiset.cons_coe, ← Multiset.singleton_add]
            abel
        · subst heq
          rw [stepLoop_war] at h
          obtain ⟨h1, h2, h3⟩ := ih (cs.drop 3) (ps.drop 3) _ _ m gs2 (by simp at hn ⊢; omega) h
          refine ⟨h1, ?_, ?_⟩
          · simp at h2 ⊢
            omega
          · rw [h3]
            conv_rhs => rw [← List.take_append_drop 3 cs, ← List.take_append_drop 3 ps]
            simp only [← Multiset.coe_add, ← Multiset.cons_coe, ← Multiset.singleton_add]
            abel
        · rw [stepLoop_gt c p cs ps m cpile ppile hgt] at h
          injection h with h2
          subst h2
          refine ⟨rfl, ?_, ?_⟩
          · simp
            omega
          · simp only [← Multiset.coe_add, ← Multiset.cons_coe, ← Multiset.singleton_add]
            abel

theorem step_cont_inv (gs gs2 : GameState) (h : gs.step = some (.Cont gs2)) :
    gs.moves < MAX_MOVES ∧ gs2.moves = gs.moves + 1 ∧
    gs2.computer.length + gs2.player.length
      = gs.computer.length + gs.player.length ∧
    (↑gs2.computer + ↑gs2.player : Multiset Nat) = ↑gs.computer + ↑gs.player := by
  unfold GameState.step at h
  by_cases hm : MAX_MOVES ≤ gs.moves
  · rw [if_pos hm] at h
    by_cases he : gs.moves = MAX_MOVES
    · rw [if_pos he] at h
      exact absurd h (by simp)
    · rw [if_neg he] at h
      exact absurd h (by simp)
  · rw [if_neg hm] at h
    rw [Option.some_inj] at h
    obtain ⟨h1, h2, h3⟩ := stepLoop_cont_inv (gs.computer.length + gs.player.length)
      gs.computer gs.player Deck.new_empty Deck.new_empty gs.moves gs2 le_rfl h
    refine ⟨by omega, h1, ?_, ?_⟩
    · simpa [Deck.new_empty] using h2
    · simpa [Deck.new_empty] using h3

theorem step_example_eval :
    GameState.step ⟨[2, 3], [4, 5], 6⟩ = some (.Cont ⟨[3], [5, 4, 2], 7⟩) := by
  unfold GameState.step
  rw [if_neg (by decide)]
  rw [show stepLoop [2, 3] [4, 5] 6 Deck.new_empty Deck.new_empty
    = .Cont ⟨[3], ([5] ++ (Deck.new_empty ++ [4])) ++ (Deck.new_empty ++ [2]), 7⟩
    from stepLoop_lt 2 4 [3] [5] 6 Deck.new_empty Deck.new_empty (by decide)]
  simp [Deck.new_empty]

/-- C1: for every game state whose move count is below the cap, whose two
decks are non-empty and whose two primary-drawn top cards differ, `step`
returns `Continuing` in which the round winner's deck (the side with the
higher drawn card) has received first its own transient pile and then the
opponent's pile appended to its back, and the move count is the input
move count plus one. -/
theorem step_round_no_tie (c p : Nat) (cs ps : Deck) (m : Nat)
    (hm : m < MAX_MOVES) (hne : c ≠ p) :
    GameState.step ⟨c :: cs, p :: ps, m⟩
      = some (if c < p then .Cont ⟨cs, (ps ++ [p]) ++ [c], m + 1⟩
              else .Cont ⟨(cs ++ [c]) ++ [p], ps, m + 1⟩) := by
  unfold GameState.step
  rw [if_neg (by simp; omega)]
  by_cases hlt : c < p
  · rw [show stepLoop (c :: cs) (p :: ps) m Deck.new_empty Deck.new_empty
      = .Cont ⟨cs, (ps ++ (Deck.new_empty ++ [p])) ++ (Deck.new_empty ++ [c]), m + 1⟩
      from stepLoop_lt c p cs ps m Deck.new_empty Deck.new_empty hlt]
    simp [Deck.new_empty, hlt]
  · have hgt : p < c := by omega
    rw [show stepLoop (c :: cs) (p :: ps) m Deck.new_empty Deck.new_empty
      = .Cont ⟨(cs ++ (Deck.new_empty ++ [c])) ++ (Deck.new_empty ++ [p]), ps, m + 1⟩
      from stepLoop_gt c p cs ps m Deck.new_empty Deck.new_empty hgt]
    simp [Deck.new_empty, hlt]

/-- Witness for C1 at the spec's concrete example: computer deck `[2,3]`,
player deck `[4,5]`, move count 6 steps to computer `[3]`, player
`[5,4,2]`, move count 7. -/
theorem step_round_no_tie_witness :
    GameState.step ⟨[2, 3], [4, 5], 6⟩ = some (.Cont ⟨[3], [5, 4, 2], 7⟩) := by
  have h := step_round_no_tie 2 4 [3] [5] 6 (by decide) (by decide)
  simpa using h

/-- C2: from computer `[2,8,9,10,11]`, player `[2,3,4,5,6,7]`, move count
8, a single `step` call resolves the tie 2 = 2 by three supplementary war
draws per side into the same accumulated piles, then compares the next
primary pair 11 vs 6 and returns `Continuing` with player `[7]`, computer
`[2,8,9,10,11,2,3,4,5,6]`, move count 9. -/
theorem step_war_example :
    GameState.step ⟨[2, 8, 9, 10, 11], [2, 3, 4, 5, 6, 7], 8⟩
      = some (.Cont ⟨[2, 8, 9, 10, 11, 2, 3, 4, 5, 6], [7], 9⟩) := by
  unfold GameState.step
  rw [if_neg (by decide)]
  rw [show stepLoop [2, 8, 9, 10, 11] [2, 3, 4, 5, 6, 7] 8 Deck.new_empty Deck.new_empty
    = stepLoop ([8, 9, 10, 11].drop 3) ([3, 4, 5, 6, 7].drop 3) 8
        ((Deck.new_empty ++ [2]) ++ [8, 9, 10, 11].take 3)
        ((Deck.new_empty ++ [2]) ++ [3, 4, 5, 6, 7].take 3)
    from stepLoop_war 2 8 [8, 9, 10, 11] [3, 4, 5, 6, 7] Deck.new_empty Deck.new_empty]
  rw [show (([8, 9, 10, 11] : Deck).drop 3) = [11] from rfl,
    show (([3, 4, 5, 6, 7] : Deck).drop 3) = [6, 7] from rfl,
    show ((Deck.new_empty ++ [2]) ++ ([8, 9, 10, 11] : Deck).take 3) = [2, 8, 9, 10] from rfl,
    show ((Deck.new_empty ++ [2]) ++ ([3, 4, 5, 6, 7] : Deck).take 3) = [2, 3, 4, 5] from rfl]
  rw [stepLoop_gt 11 6 [] [7] 8 [2, 8, 9, 10] [2, 3, 4, 5] (by decide)]
  simp

/-- C3 counterexample: the claimed total order across score categories
fails at `FinishWith 0` (a card-count payload within the claimed range of
at most 2 x 13 x 256): its integer is strictly below the `TiedAt`
integer, contradicting that any `TiedAt` value is less than any
`FinishWith` value. -/
theorem to_int_tied_finish_cex :
    (Score.FinishWith 0).to_int < (Score.TiedAt 0).to_int
      ∧ 0 ≤ 2 * 13 * SUITS_PER_PLAYER := by
  constructor
  · simp [Score.to_int, MAX_MOVES, SUITS_PER_PLAYER]
  · simp

/-- C3 amended: with move-count payloads of `WinAfter` strictly below the
cap (as produced by the game), `LoseAfter` payloads at most the cap, and
`FinishWith` card counts strictly above 13 x 256 (and at most
2 x 13 x 256), the integer mapping orders the categories low to high:
`LoseAfter` below `TiedAt` below `FinishWith` below `WinAfter`, and
within `WinAfter` a smaller move count yields a larger integer.  Without
the lower bound on the `FinishWith` card count, `TiedAt` is not below
`FinishWith`. -/
theorem to_int_category_order (ml mt cards mw mw2 : Nat)
    (hml : ml ≤ MAX_MOVES)
    (hcards_lo : 13 * SUITS_PER_PLAYER < cards)
    (hcards_hi : cards ≤ 2 * 13 * SUITS_PER_PLAYER)
    (hmw : mw < MAX_MOVES) (hmw2 : mw2 < MAX_MOVES) :
    (Score.LoseAfter ml).to_int < (Score.TiedAt mt).to_int ∧
    (Score.TiedAt mt).to_int < (Score.FinishWith cards).to_int ∧
    (Score.FinishWith cards).to_int < (Score.WinAfter mw).to_int ∧
    (mw < mw2 → (Score.WinAfter mw2).to_int < (Score.WinAfter mw).to_int) := by
  simp only [Score.to_int, MAX_MOVES, SUITS_PER_PLAYER] at *
  omega

/-- Witness for C3 at concrete payloads: moves 5 (lose), 3 (tied), 4000
cards (finish), moves 10 and 20 (wins). -/
theorem to_int_category_order_witness :
    (Score.LoseAfter 5).to_int < (Score.TiedAt 3).to_int ∧
    (Score.TiedAt 3).to_int < (Score.FinishWith 4000).to_int ∧
    (Score.FinishWith 4000).to_int < (Score.WinAfter 10).to_int ∧
    (10 < 20 → (Score.WinAfter 20).to_int < (Score.WinAfter 10).to_int) :=
  to_int_category_order 5 3 4000 10 20 (by decide) (by decide) (by decide)
    (by decide) (by decide)

/-- C4: for every game state with move count below the cap, if both decks
are empty at the primary draw then `step` returns `Done (TiedAt m)`; if
only the computer's deck is empty it returns `Done (WinAfter m)`; if only
the player's deck is empty it returns `Done (LoseAfter m)`; in each case
the reported move count is the input move count unchanged. -/
theorem step_exhaustion (m x : Nat) (cs ps : Deck) (hm : m < MAX_MOVES) :
    GameState.step ⟨[], [], m⟩ = some (.Done (.TiedAt m)) ∧
    GameState.step ⟨[], x :: ps, m⟩ = some (.Done (.WinAfter m)) ∧
    GameState.step ⟨x :: cs, [], m⟩ = some (.Done (.LoseAfter m)) := by
  have hm2 : ¬ MAX_MOVES ≤ m := by omega
  refine ⟨?_, ?_, ?_⟩ <;>
    simp [GameState.step, hm2, stepLoop_nil_nil, stepLoop_nil_cons, stepLoop_cons_nil]

/-- Witness for C4 at move count 0 with card 2 and empty tails. -/
theorem step_exhaustion_witness :
    GameState.step ⟨[], [], 0⟩ = some (.Done (.TiedAt 0)) ∧
    GameState.step ⟨[], [2], 0⟩ = some (.Done (.WinAfter 0)) ∧
    GameState.step ⟨[2], [], 0⟩ = some (.Done (.LoseAfter 0)) :=
  step_exhaustion 0 2 [] [] (by decide)

/-- C5: for every game state whose move count has reached the cap of
1,000,000, `step` terminates immediately, regardless of deck contents,
with `Done (FinishWith n)` where `n` is the player's current card
count. -/
theorem step_at_cap (gs : GameState) (h : gs.moves = MAX_MOVES) :
    gs.step = some (.Done (.FinishWith gs.player.length)) := by
  simp [GameState.step, h]

/-- Witness for C5: computer `[2]`, player `[3,4]` at the cap yields
`Done (FinishWith 2)`. -/
theorem step_at_cap_witness :
    GameState.step ⟨[2], [3, 4], MAX_MOVES⟩ = some (.Done (.FinishWith 2)) := by
  have h := step_at_cap ⟨[2], [3, 4], MAX_MOVES⟩ rfl
  simpa using h

/-- C6: during the supplementary war draws a side whose deck is empty
contributes no card to its pile (a `warDraw` on an empty deck is a no-op,
not an error), and on equal top cards the round loop takes up to three
cards per side into the accumulated piles and re-enters the loop, so
game-ending exhaustion is only detected at the next primary draw: a side
may go empty mid-war and the round continues to the next comparison. -/
theorem war_draws_skip_empty (c m : Nat) (cs ps cpile ppile pile : Deck) :
    warDraw [] pile = ([], pile) ∧
    stepLoop (c :: cs) (c :: ps) m cpile ppile
      = stepLoop (cs.drop 3) (ps.drop 3) m
          ((cpile ++ [c]) ++ cs.take 3) ((ppile ++ [c]) ++ ps.take 3) :=
  ⟨rfl, stepLoop_war c m cs ps cpile ppile⟩

/-- C7: every `step` invocation that returns `Continuing` conserves the
total number of cards across the two decks. -/
theorem step_conserves_count (gs gs2 : GameState)
    (h : gs.step = some (.Cont gs2)) :
    gs2.computer.length + gs2.player.length
      = gs.computer.length + gs.player.length :=
  (step_cont_inv gs gs2 h).2.2.1

/-- Witness for C7 at the concrete round from computer `[2,3]`, player
`[4,5]`, move count 6. -/
theorem step_conserves_count_witness :
    (⟨[3], [5, 4, 2], 7⟩ : GameState).computer.length
        + (⟨[3], [5, 4, 2], 7⟩ : GameState).player.length
      = (⟨[2, 3], [4, 5], 6⟩ : GameState).computer.length
        + (⟨[2, 3], [4, 5], 6⟩ : GameState).player.length :=
  step_conserves_count ⟨[2, 3], [4, 5], 6⟩ ⟨[3], [5, 4, 2], 7⟩ step_example_eval

/-- C8: in every state reachable from an initial game state (move count
0) by repeated `Continuing` steps, the move count never exceeds the cap,
and consequently the assertion in the cap branch of `step` never fails
(the modelled `step` never returns `none`). -/
theorem reachable_moves_le (gs : GameState) (h : Reachable gs) :
    gs.moves ≤ MAX_MOVES ∧ gs.step ≠ none := by
  have hle : gs.moves ≤ MAX_MOVES := by
    induction h with
    | init computer player => exact Nat.zero_le _
    | next gs0 gs2 hr hs ih =>
      obtain ⟨h1, h2, _⟩ := step_cont_inv gs0 gs2 hs
      omega
  refine ⟨hle, ?_⟩
  unfold GameState.step
  by_cases hm : MAX_MOVES ≤ gs.moves
  · have he : gs.moves = MAX_MOVES := le_antisymm hle hm
    simp [hm, he]
  · simp [hm]

/-- Witness for C8 at the initial state with computer `[2]`, player `[3]`. -/
theorem reachable_moves_le_witness :
    (⟨[2], [3], 0⟩ : GameState).moves ≤ MAX_MOVES
      ∧ (⟨[2], [3], 0⟩ : GameState).step ≠ none :=
  reachable_moves_le ⟨[2], [3], 0⟩ (Reachable.init [2] [3])

/-- C9: the round-resolution loop terminates: on an equal comparison the
loop re-enters with exactly the decks and piles produced by the three
supplementary war draws, and the combined number of cards remaining in
the two decks strictly decreases (the two primary-drawn cards leave the
decks permanently), so the war loop is well-founded. -/
theorem war_loop_measure (c m : Nat) (cs ps cpile ppile : Deck) :
    stepLoop (c :: cs) (c :: ps) m cpile ppile
      = stepLoop (warDraws 3 cs (cpile.add c)).1 (warDraws 3 ps (ppile.add c)).1 m
          (warDraws 3 cs (cpile.add c)).2 (warDraws 3 ps (ppile.add c)).2 ∧
    (warDraws 3 cs (cpile.add c)).1.length + (warDraws 3 ps (ppile.add c)).1.length
      < (c :: cs).length + (c :: ps).length := by
  constructor
  · rw [stepLoop_war]
    simp [warDraws_eq, Deck.add]
  · simp [warDraws_eq]
    omega

/-- C10: every `step` invocation that returns `Continuing` preserves the
multiset of card ranks across the two decks exactly: no card value is
created, destroyed or altered. -/
theorem step_conserves_multiset (gs gs2 : GameState)
    (h : gs.step = some (.Cont gs2)) :
    (↑gs2.computer + ↑gs2.player : Multiset Nat)
      = ↑gs.computer + ↑gs.player :=
  (step_cont_inv gs gs2 h).2.2.2

/-- Witness for C10 at the concrete round from computer `[2,3]`, player
`[4,5]`, move count 6. -/
theorem step_conserves_multiset_witness :
    (↑(⟨[3], [5, 4, 2], 7⟩ : GameState).computer
        + ↑(⟨[3], [5, 4, 2], 7⟩ : GameState).player : Multiset Nat)
      = ↑(⟨[2, 3], [4, 5], 6⟩ : GameState).computer
        + ↑(⟨[2, 3], [4, 5], 6⟩ : GameState).player :=
  step_conserves_multiset ⟨[2, 3], [4, 5], 6⟩ ⟨[3], [5, 4, 2], 7⟩ step_example_eval
